import Mathlib

/-!
Verification of the plexus half-edge mesh library core against its
specification.  The Lean definitions below are a shallow embedding of the
Rust source files `src/graph/view/face.rs`, `src/graph/view/vertex.rs` and
`src/primitive/index.rs`.  Keys are modelled as `Nat`; storages are
association lists keyed by `Nat`; stateful Rust iterators become explicit
state-passing functions driven by a fuel parameter (a Rust iterator is
pulled one item per `next` call, so the fuel bounds the number of calls).
-/

namespace Plexus

/-- Half-edge record, from `graph::topology::Edge`: destination vertex key,
optional opposite half-edge key, optional next half-edge key, optional
incident face key. -/
structure Edge where
  vertex : Nat
  opposite : Option Nat
  next : Option Nat
  face : Option Nat
deriving DecidableEq, Repr

/-- Edge storage: an association list from edge key to edge record,
modelling `Storage<Edge<G>>`. -/
def EdgeStore : Type := List (Nat × Edge)

/-- Key lookup in edge storage (`storage.as_storage().get(&key)`). -/
def edgeAt (s : EdgeStore) (k : Nat) : Option Edge :=
  (List.find? (fun p => p.1 == k) s).map Prod.snd

/-- The optional next edge of an edge key:
`storage.get(&edge).and_then(|edge| edge.next)`. -/
def nextOf (s : EdgeStore) (e : Nat) : Option Nat :=
  (edgeAt s e).bind Edge.next

/-- State of the face-centered `EdgeCirculator` in `face.rs`: the current
edge key and the breadcrumb, both optional. -/
structure FaceEdgeCirculator where
  edge : Option Nat
  breadcrumb : Option Nat
deriving DecidableEq, Repr

/-- One call of `EdgeCirculator::next` (face.rs lines 869-887).  Returns the
updated circulator state and the yielded edge key, if any. -/
def faceCircStep (s : EdgeStore) (c : FaceEdgeCirculator) :
    FaceEdgeCirculator × Option Nat :=
  match c.edge with
  | none => (c, none)
  | some edge =>
    let next := nextOf s edge
    match c.breadcrumb with
    | none => (c, none)
    | some _ =>
      if c.breadcrumb = next then
        ({ c with breadcrumb := none }, some edge)
      else
        ({ c with edge := next }, some edge)

/-- The list of edge keys yielded by up to `fuel` calls of
`EdgeCirculator::next`, stopping at the first `None`. -/
def faceCircTake (s : EdgeStore) : Nat → FaceEdgeCirculator → List Nat
  | 0, _ => []
  | fuel + 1, c =>
    match faceCircStep s c with
    | (c2, some e) => e :: faceCircTake s fuel c2
    | (_, none) => []

/-- The face-centered edge circulator seeded at edge `e`
(`EdgeCirculator::from` a `FaceView`, face.rs lines 890-906: both the
current edge and the breadcrumb start at the face's incident edge). -/
def faceCirculateEdges (s : EdgeStore) (e : Nat) (fuel : Nat) : List Nat :=
  faceCircTake s fuel ⟨some e, some e⟩

/-- `FaceView::reachable_arity` (face.rs lines 194-196): the count of the
interior-edge circulation. -/
def reachable_arity (s : EdgeStore) (e : Nat) (fuel : Nat) : Nat :=
  (faceCirculateEdges s e fuel).length

/-- Once the breadcrumb is cleared, the face-centered circulator yields
nothing, regardless of the remaining fuel. -/
theorem faceCircTake_breadcrumb_none (s : EdgeStore) (fuel : Nat) (oe : Option Nat) :
    faceCircTake s fuel ⟨oe, none⟩ = [] := by
  cases fuel with
  | zero => rfl
  | succ fuel =>
    cases oe with
    | none => rfl
    | some e => rfl

/-- Trace of the face-centered circulator along a closed `next` loop
`E 0, E 1, …, E (n-1), E 0` that does not return to `E 0` early: started at
position `k` of the loop with breadcrumb `E 0`, it yields the remaining
`n - k` loop edges in order and then stops. -/
theorem faceCircTake_trace (s : EdgeStore) (n : Nat) (E : Nat → Nat)
    (hstep : ∀ k, k < n - 1 → nextOf s (E k) = some (E (k + 1)))
    (hlast : nextOf s (E (n - 1)) = some (E 0))
    (hmin : ∀ k, k < n → 0 < k → E k ≠ E 0) :
    ∀ j, 0 < j → j ≤ n → ∀ fuel, j ≤ fuel →
      faceCircTake s fuel ⟨some (E (n - j)), some (E 0)⟩ =
        (List.range j).map (fun i => E (n - j + i)) := by
  intro j
  induction j with
  | zero => omega
  | succ j ih =>
    intro _ hjn fuel hfuel
    match fuel, hfuel with
    | fuel + 1, _ =>
      by_cases hj : j = 0
      · subst hj
        have hstep1 :
            faceCircStep s ⟨some (E (n - 1)), some (E 0)⟩ =
              (⟨some (E (n - 1)), none⟩, some (E (n - 1))) := by
          simp [faceCircStep, hlast]
        simp [faceCircTake, hstep1, faceCircTake_breadcrumb_none, List.range_succ]
      · have hk1 : n - (j + 1) < n - 1 := by omega
        have hne : E (n - (j + 1) + 1) ≠ E 0 := by
          have := hmin (n - (j + 1) + 1) (by omega) (by omega)
          exact this
        have hstep1 :
            faceCircStep s ⟨some (E (n - (j + 1))), some (E 0)⟩ =
              (⟨some (E (n - (j + 1) + 1)), some (E 0)⟩, some (E (n - (j + 1)))) := by
          have hne0 : E 0 ≠ E (n - (j + 1) + 1) := fun h => hne h.symm
          simp [faceCircStep, hstep _ hk1, hne0]
        have hrec := ih (by omega) (by omega) fuel (by omega)
        have hEk : n - (j + 1) + 1 = n - j := by omega
        rw [faceCircTake, hstep1, hEk]
        show E (n - (j + 1)) :: faceCircTake s fuel ⟨some (E (n - j)), some (E 0)⟩ =
          (List.range (j + 1)).map (fun i => E (n - (j + 1) + i))
        rw [hrec]
        have : (List.range (j + 1)).map (fun i => E (n - (j + 1) + i)) =
            E (n - (j + 1)) :: (List.range j).map (fun i => E (n - (j + 1) + (i + 1))) := by
          rw [List.range_succ_eq_map, List.map_cons, List.map_map]
          simp [Function.comp]
        rw [this]
        congr 1
        apply List.map_congr_left
        intro i _
        congr 1
        omega

/-- Along a closed loop that first returns to its seed after exactly `n`
steps, the loop positions carry pairwise distinct edge keys.  If two
positions aliased, pushing the aliasing forward to the end of the loop
would make the loop return to its seed early. -/
theorem loop_injective (s : EdgeStore) (n : Nat) (E : Nat → Nat)
    (hstep : ∀ k, k < n - 1 → nextOf s (E k) = some (E (k + 1)))
    (hlast : nextOf s (E (n - 1)) = some (E 0))
    (hmin : ∀ k, k < n → 0 < k → E k ≠ E 0) :
    ∀ i j, i < n → j < n → E i = E j → i = j := by
  have hshift : ∀ t i j, i ≤ j → j + t ≤ n - 1 → E i = E j → E (i + t) = E (j + t) := by
    intro t
    induction t with
    | zero => intro i j _ _ h; simpa using h
    | succ t ih =>
      intro i j hij hjt h
      have hprev := ih i j hij (by omega) h
      have h1 : nextOf s (E (i + t)) = some (E (i + t + 1)) := hstep _ (by omega)
      have h2 : nextOf s (E (j + t)) = some (E (j + t + 1)) := hstep _ (by omega)
      rw [hprev, h2] at h1
      have h3 := Option.some.inj h1
      have hi1 : i + (t + 1) = i + t + 1 := by omega
      have hj1 : j + (t + 1) = j + t + 1 := by omega
      rw [hi1, hj1, h3]
  have key : ∀ i j, i < j → j < n → E i ≠ E j := by
    intro i j hij hjn h
    have ht : j + (n - 1 - j) ≤ n - 1 := by omega
    have hend := hshift (n - 1 - j) i j (by omega) ht h
    have hEnd : E (i + (n - 1 - j)) = E (n - 1) := by
      rw [hend]; congr 1; omega
    have hlt : i + (n - 1 - j) < n - 1 := by omega
    have h1 : nextOf s (E (i + (n - 1 - j))) = some (E (i + (n - 1 - j) + 1)) :=
      hstep _ hlt
    rw [hEnd, hlast] at h1
    have h0 := Option.some.inj h1
    exact hmin (i + (n - 1 - j) + 1) (by omega) (by omega) h0.symm
  intro i j hi hj h
  rcases Nat.lt_trichotomy i j with hlt | heq | hgt
  · exact absurd h (key i j hlt hj)
  · exact heq
  · exact absurd h.symm (key j i hgt hi)

/-- C1: for every face of a consistent mesh — one whose `next` chain from the
face's incident edge returns to that edge in exactly `n ≥ 3` steps — the
face-centered edge circulator seeded at that edge yields exactly the `n`
loop edges, seed first, in `next` order, with no edge (in particular the
seed) yielded twice, and yields nothing afterwards regardless of how many
further calls are made; `reachable_arity` is the count of this circulation,
so the circulation length equals the arity `n`. -/
theorem claim1_face_edge_circulator (s : EdgeStore) (e : Nat) (n : Nat) (E : Nat → Nat)
    (hn : 3 ≤ n) (hE0 : E 0 = e)
    (hstep : ∀ k, k < n - 1 → nextOf s (E k) = some (E (k + 1)))
    (hlast : nextOf s (E (n - 1)) = some e)
    (hmin : ∀ k, k < n → 0 < k → E k ≠ e) :
    ∀ fuel, n ≤ fuel →
      faceCirculateEdges s e fuel = (List.range n).map E ∧
      ((List.range n).map E).Nodup ∧
      reachable_arity s e fuel = n := by
  subst hE0
  intro fuel hf
  have htrace := faceCircTake_trace s n E hstep hlast hmin n (by omega) (by omega) fuel hf
  simp only [Nat.sub_self, Nat.zero_add] at htrace
  have hcirc : faceCirculateEdges s (E 0) fuel = (List.range n).map E := htrace
  refine ⟨hcirc, ?_, ?_⟩
  · exact List.Nodup.map_on
      (fun i hi j hj h =>
        loop_injective s n E hstep hlast hmin i j
          (List.mem_range.mp hi) (List.mem_range.mp hj) h)
      (List.nodup_range n)
  · rw [reachable_arity, hcirc, List.length_map, List.length_range]

/-- A consistent single triangular face with an exterior boundary: three
edges `0 → 1 → 2 → 0`, all with absent opposites (a flat disk). -/
def triangleStore : EdgeStore :=
  [(0, ⟨10, none, some 1, some 0⟩),
   (1, ⟨11, none, some 2, some 0⟩),
   (2, ⟨12, none, some 0, some 0⟩)]

/-- Witness for C1: the triangular face's circulator yields `[0, 1, 2]`. -/
theorem claim1_face_edge_circulator_witness :
    faceCirculateEdges triangleStore 0 10 = (List.range 3).map (fun k => k) ∧
    ((List.range 3).map (fun k => k)).Nodup ∧
    reachable_arity triangleStore 0 10 = 3 :=
  claim1_face_edge_circulator triangleStore 0 3 (fun k => k) (by decide) rfl
    (by decide) (by decide) (by decide) 10 (by decide)

/-- The face reached through an edge record's opposite:
`edge.opposite.and_then(|o| get(o)).and_then(|opposite| opposite.face)`
(face.rs lines 983-986). -/
def oppositeFaceOf (s : EdgeStore) (r : Edge) : Option Nat :=
  r.opposite.bind (fun o => (edgeAt s o).bind Edge.face)

/-- The yields of repeated calls of the face-centered `FaceCirculator::next`
(face.rs lines 977-997), driven for up to `fuel` pulls of the underlying
edge circulator.  Each pull that resolves to an edge whose opposite has an
incident face yields that face; a pull whose opposite is absent or has no
face is skipped; a pull that yields nothing or does not resolve ends the
iteration. -/
def faceCircFaces (s : EdgeStore) : Nat → FaceEdgeCirculator → List Nat
  | 0, _ => []
  | fuel + 1, c =>
    match faceCircStep s c with
    | (_, none) => []
    | (c2, some ek) =>
      match edgeAt s ek with
      | none => []
      | some r =>
        match oppositeFaceOf s r with
        | some f => f :: faceCircFaces s fuel c2
        | none => faceCircFaces s fuel c2

/-- `FaceView::reachable_neighboring_faces` (face.rs lines 188-192): the
face circulator over the face's interior-edge circulation. -/
def neighboringFaces (s : EdgeStore) (e : Nat) (fuel : Nat) : List Nat :=
  faceCircFaces s fuel ⟨some e, some e⟩

/-- Once the breadcrumb is cleared, the face circulator yields nothing. -/
theorem faceCircFaces_breadcrumb_none (s : EdgeStore) (fuel : Nat) (oe : Option Nat) :
    faceCircFaces s fuel ⟨oe, none⟩ = [] := by
  cases fuel with
  | zero => rfl
  | succ fuel =>
    cases oe with
    | none => rfl
    | some e => rfl

/-- An edge with a `next` pointer resolves in storage. -/
theorem nextOf_some (s : EdgeStore) (x y : Nat) (h : nextOf s x = some y) :
    ∃ r, edgeAt s x = some r ∧ r.next = some y := by
  cases hx : edgeAt s x with
  | none => rw [nextOf, hx] at h; simp at h
  | some r => rw [nextOf, hx] at h; exact ⟨r, rfl, h⟩

/-- Trace of the neighboring-face circulator along the closed `next` loop:
it yields the skip-projection of the remaining loop edges onto the faces of
their opposites. -/
theorem faceCircFaces_trace (s : EdgeStore) (n : Nat) (E : Nat → Nat)
    (hstep : ∀ k, k < n - 1 → nextOf s (E k) = some (E (k + 1)))
    (hlast : nextOf s (E (n - 1)) = some (E 0))
    (hmin : ∀ k, k < n → 0 < k → E k ≠ E 0) :
    ∀ j, 0 < j → j ≤ n → ∀ fuel, j ≤ fuel →
      faceCircFaces s fuel ⟨some (E (n - j)), some (E 0)⟩ =
        ((List.range j).map (fun i => E (n - j + i))).filterMap
          (fun ek => (edgeAt s ek).bind (oppositeFaceOf s)) := by
  intro j
  induction j with
  | zero => omega
  | succ j ih =>
    intro _ hjn fuel hfuel
    match fuel, hfuel with
    | fuel + 1, _ =>
      by_cases hj : j = 0
      · subst hj
        have hstep1 :
            faceCircStep s ⟨some (E (n - 1)), some (E 0)⟩ =
              (⟨some (E (n - 1)), none⟩, some (E (n - 1))) := by
          simp [faceCircStep, hlast]
        obtain ⟨r, hr, -⟩ := nextOf_some s (E (n - 1)) (E 0) hlast
        rw [faceCircFaces, hstep1]
        show (match edgeAt s (E (n - 1)) with
          | none => []
          | some r =>
            match oppositeFaceOf s r with
            | some f => f :: faceCircFaces s fuel ⟨some (E (n - 1)), none⟩
            | none => faceCircFaces s fuel ⟨some (E (n - 1)), none⟩) = _
        rw [hr]
        cases hopp : oppositeFaceOf s r with
        | none =>
          simp [faceCircFaces_breadcrumb_none, List.range_succ, hr, hopp]
        | some f =>
          simp [faceCircFaces_breadcrumb_none, List.range_succ, hr, hopp]
      · have hk1 : n - (j + 1) < n - 1 := by omega
        have hne : E (n - (j + 1) + 1) ≠ E 0 := hmin (n - (j + 1) + 1) (by omega) (by omega)
        have hstep1 :
            faceCircStep s ⟨some (E (n - (j + 1))), some (E 0)⟩ =
              (⟨some (E (n - (j + 1) + 1)), some (E 0)⟩, some (E (n - (j + 1)))) := by
          have hne0 : E 0 ≠ E (n - (j + 1) + 1) := fun h => hne h.symm
          simp [faceCircStep, hstep _ hk1, hne0]
        obtain ⟨r, hr, -⟩ := nextOf_some s (E (n - (j + 1))) (E (n - (j + 1) + 1)) (hstep _ hk1)
        have hrec := ih (by omega) (by omega) fuel (by omega)
        have hEk : n - (j + 1) + 1 = n - j := by omega
        rw [faceCircFaces, hstep1, hEk]
        show (match edgeAt s (E (n - (j + 1))) with
          | none => []
          | some r =>
            match oppositeFaceOf s r with
            | some f => f :: faceCircFaces s fuel ⟨some (E (n - j)), some (E 0)⟩
            | none => faceCircFaces s fuel ⟨some (E (n - j)), some (E 0)⟩) = _
        rw [hr]
        have hsplit : (List.range (j + 1)).map (fun i => E (n - (j + 1) + i)) =
            E (n - (j + 1)) :: (List.range j).map (fun i => E (n - j + i)) := by
          rw [List.range_succ_eq_map, List.map_cons, List.map_map]
          refine congrArg₂ List.cons ?_ ?_
          · exact congrArg E (by omega)
          · apply List.map_congr_left
            intro i _
            exact congrArg E (by omega)
        rw [hsplit]
        cases hopp : oppositeFaceOf s r with
        | none => simp [List.filterMap_cons, hr, hopp, hrec]
        | some f => simp [List.filterMap_cons, hr, hopp, hrec]

/-- C2: for every face of a consistent mesh (closed `next` loop of length
`n ≥ 3`), the neighboring-face circulator yields, for each interior edge of
the face in circulation order, the face incident to that edge's opposite,
silently skipping — without terminating — interior edges whose opposite is
absent or whose opposite has no incident face; the interior-edge
circulation itself still has exactly `n = arity` items. -/
theorem claim2_neighboring_faces (s : EdgeStore) (e : Nat) (n : Nat) (E : Nat → Nat)
    (hn : 3 ≤ n) (hE0 : E 0 = e)
    (hstep : ∀ k, k < n - 1 → nextOf s (E k) = some (E (k + 1)))
    (hlast : nextOf s (E (n - 1)) = some e)
    (hmin : ∀ k, k < n → 0 < k → E k ≠ e) :
    ∀ fuel, n ≤ fuel →
      neighboringFaces s e fuel =
        (faceCirculateEdges s e fuel).filterMap
          (fun ek => (edgeAt s ek).bind (oppositeFaceOf s)) ∧
      reachable_arity s e fuel = n := by
  subst hE0
  intro fuel hf
  have htraceE := faceCircTake_trace s n E hstep hlast hmin n (by omega) (by omega) fuel hf
  have htraceF := faceCircFaces_trace s n E hstep hlast hmin n (by omega) (by omega) fuel hf
  simp only [Nat.sub_self, Nat.zero_add] at htraceE htraceF
  refine ⟨?_, ?_⟩
  · show faceCircFaces s fuel ⟨some (E 0), some (E 0)⟩ = _
    rw [htraceF]
    show _ = (faceCircTake s fuel ⟨some (E 0), some (E 0)⟩).filterMap _
    rw [htraceE]
  · show (faceCircTake s fuel ⟨some (E 0), some (E 0)⟩).length = n
    rw [htraceE]
    simp

/-- Witness for C2: the flat-disk triangle (all opposites absent) has zero
neighboring faces while its interior-edge circulation still has arity 3. -/
theorem claim2_neighboring_faces_witness :
    (neighboringFaces triangleStore 0 10 =
      (faceCirculateEdges triangleStore 0 10).filterMap
        (fun ek => (edgeAt triangleStore ek).bind (oppositeFaceOf triangleStore)) ∧
     reachable_arity triangleStore 0 10 = 3) ∧
    neighboringFaces triangleStore 0 10 = [] :=
  ⟨claim2_neighboring_faces triangleStore 0 3 (fun k => k) (by decide) rfl
      (by decide) (by decide) (by decide) 10 (by decide),
   by decide⟩

/-- The opposite of an edge key resolved through storage:
`get(&key).and_then(|edge| edge.opposite)`. -/
def oppositeOf (s : EdgeStore) (x : Nat) : Option Nat :=
  (edgeAt s x).bind Edge.opposite

/-- The `next` field of an edge key resolved through storage:
`get(&key).map(|edge| edge.next)` — the field itself is optional, so a
successful lookup of an edge with no successor is `some none`. -/
def nextFieldOf (s : EdgeStore) (x : Nat) : Option (Option Nat) :=
  (edgeAt s x).map Edge.next

/-- State of the vertex-centered `EdgeCirculator` in `vertex.rs`: the
current outgoing edge key and the breadcrumb, both optional. -/
structure VertexEdgeCirculator where
  outgoing : Option Nat
  breadcrumb : Option Nat
deriving DecidableEq, Repr

/-- One call of the vertex-centered `EdgeCirculator::next` (vertex.rs lines
421-443): resolve the current outgoing edge, take its opposite as the
incoming edge, resolve it and read its `next` field as the new outgoing
edge; if the breadcrumb equals the new outgoing edge clear the breadcrumb,
otherwise advance; either way yield the incoming edge.  Any failure along
the chain (including an absent opposite) yields nothing and leaves the
state unchanged. -/
def vertexCircStep (s : EdgeStore) (c : VertexEdgeCirculator) :
    VertexEdgeCirculator × Option Nat :=
  match (c.outgoing.bind (fun og => edgeAt s og)).bind Edge.opposite with
  | none => (c, none)
  | some incoming =>
    match edgeAt s incoming with
    | none => (c, none)
    | some r =>
      let outgoing := r.next
      match c.breadcrumb with
      | none => (c, none)
      | some _ =>
        if c.breadcrumb = outgoing then
          ({ c with breadcrumb := none }, some incoming)
        else
          ({ c with outgoing := outgoing }, some incoming)

/-- The list of incoming-edge keys yielded by up to `fuel` calls of the
vertex-centered `EdgeCirculator::next`, stopping at the first `None`. -/
def vertexCircTake (s : EdgeStore) : Nat → VertexEdgeCirculator → List Nat
  | 0, _ => []
  | fuel + 1, c =>
    match vertexCircStep s c with
    | (c2, some e) => e :: vertexCircTake s fuel c2
    | (_, none) => []

/-- `VertexView::incoming_edges` (vertex.rs lines 161-166): the circulator
seeded with the vertex's optional outgoing edge as both the current
outgoing edge and the breadcrumb. -/
def incomingEdges (s : EdgeStore) (seed : Option Nat) (fuel : Nat) : List Nat :=
  vertexCircTake s fuel ⟨seed, seed⟩

/-- Once the breadcrumb is cleared, the vertex-centered circulator yields
nothing, regardless of the remaining fuel. -/
theorem vertexCircTake_breadcrumb_none (s : EdgeStore) (fuel : Nat) (og : Option Nat) :
    vertexCircTake s fuel ⟨og, none⟩ = [] := by
  cases fuel with
  | zero => rfl
  | succ fuel =>
    show (match vertexCircStep s ⟨og, none⟩ with
      | (c2, some e) => e :: vertexCircTake s fuel c2
      | (_, none) => []) = []
    rcases h1 : (og.bind (fun o => edgeAt s o)).bind Edge.opposite with _ | incoming
    · simp [vertexCircStep, h1]
    · rcases h2 : edgeAt s incoming with _ | r
      · simp [vertexCircStep, h1, h2]
      · simp [vertexCircStep, h1, h2]

/-- An edge key whose `next` field is readable resolves in storage. -/
theorem nextFieldOf_some (s : EdgeStore) (x : Nat) (oy : Option Nat)
    (h : nextFieldOf s x = some oy) :
    ∃ r, edgeAt s x = some r ∧ r.next = oy := by
  cases hx : edgeAt s x with
  | none => rw [nextFieldOf, hx] at h; simp at h
  | some r =>
    rw [nextFieldOf, hx] at h
    exact ⟨r, rfl, Option.some.inj h⟩

/-- Trace of the vertex-centered circulator along a closed one-ring
`O 0, I 0, O 1, I 1, …` (`I k` the opposite of `O k`, `O (k+1)` the `next`
of `I k`) that first returns to the seed `O 0` after `m` alternations:
started at ring position `k = m - j`, it yields the remaining incoming
edges `I k, …, I (m-1)` and then stops. -/
theorem vertexCircTake_trace (s : EdgeStore) (m : Nat) (O I : Nat → Nat)
    (hopp : ∀ k, k < m → oppositeOf s (O k) = some (I k))
    (hnext : ∀ k, k < m - 1 → nextFieldOf s (I k) = some (some (O (k + 1))))
    (hlast : nextFieldOf s (I (m - 1)) = some (some (O 0)))
    (hmin : ∀ k, k < m → 0 < k → O k ≠ O 0) :
    ∀ j, 0 < j → j ≤ m → ∀ fuel, j ≤ fuel →
      vertexCircTake s fuel ⟨some (O (m - j)), some (O 0)⟩ =
        (List.range j).map (fun i => I (m - j + i)) := by
  intro j
  induction j with
  | zero => omega
  | succ j ih =>
    intro _ hjm fuel hfuel
    match fuel, hfuel with
    | fuel + 1, _ =>
      by_cases hj : j = 0
      · subst hj
        obtain ⟨r, hr, hrn⟩ := nextFieldOf_some s (I (m - 1)) (some (O 0)) hlast
        have h1 : (edgeAt s (O (m - 1))).bind Edge.opposite = some (I (m - 1)) :=
          hopp (m - 1) (by omega)
        have hstep1 :
            vertexCircStep s ⟨some (O (m - 1)), some (O 0)⟩ =
              (⟨some (O (m - 1)), none⟩, some (I (m - 1))) := by
          simp [vertexCircStep, h1, hr, hrn]
        rw [vertexCircTake, hstep1]
        show I (m - 1) :: vertexCircTake s fuel ⟨some (O (m - 1)), none⟩ = _
        simp [vertexCircTake_breadcrumb_none, List.range_succ]
      · have hne : O (m - (j + 1) + 1) ≠ O 0 := hmin _ (by omega) (by omega)
        obtain ⟨r, hr, hrn⟩ :=
          nextFieldOf_some s (I (m - (j + 1))) (some (O (m - (j + 1) + 1)))
            (hnext _ (by omega))
        have h1 : (edgeAt s (O (m - (j + 1)))).bind Edge.opposite = some (I (m - (j + 1))) :=
          hopp (m - (j + 1)) (by omega)
        have hEk : m - (j + 1) + 1 = m - j := by omega
        have hstep1 :
            vertexCircStep s ⟨some (O (m - (j + 1))), some (O 0)⟩ =
              (⟨some (O (m - j)), some (O 0)⟩, some (I (m - (j + 1)))) := by
          have hne0 : O 0 ≠ O (m - (j + 1) + 1) := fun h => hne h.symm
          rw [← hEk]
          simp [vertexCircStep, h1, hr, hrn, hne0]
        have hrec := ih (by omega) (by omega) fuel (by omega)
        rw [vertexCircTake, hstep1]
        show I (m - (j + 1)) :: vertexCircTake s fuel ⟨some (O (m - j)), some (O 0)⟩ = _
        rw [hrec, List.range_succ_eq_map, List.map_cons, List.map_map]
        refine congrArg₂ List.cons ?_ ?_
        · exact congrArg I (by omega)
        · apply List.map_congr_left
          intro i _
          exact congrArg I (by omega)

/-- C3: around a vertex whose one-ring closes after `m` alternations of
(opposite, next) — outgoing edges `O 0 … O (m-1)` with `O 0` the vertex's
seed edge, incoming edges `I k = opposite (O k)`, `next (I k) = O (k+1)`,
wrapping to the seed exactly at step `m` — the vertex-centered edge
circulator `incoming_edges` yields precisely `I 0, …, I (m-1)` and yields
nothing on all subsequent calls.  Moreover (second conjunct), whenever the
current outgoing edge's opposite is absent, the circulator yields nothing
at all, silently and without error, regardless of its breadcrumb. -/
theorem claim3_vertex_incoming_edges (s : EdgeStore) (m : Nat) (O I : Nat → Nat)
    (hm : 0 < m)
    (hopp : ∀ k, k < m → oppositeOf s (O k) = some (I k))
    (hnext : ∀ k, k < m - 1 → nextFieldOf s (I k) = some (some (O (k + 1))))
    (hlast : nextFieldOf s (I (m - 1)) = some (some (O 0)))
    (hmin : ∀ k, k < m → 0 < k → O k ≠ O 0) :
    (∀ fuel, m ≤ fuel →
      incomingEdges s (some (O 0)) fuel = (List.range m).map I) ∧
    (∀ (t : EdgeStore) (c : VertexEdgeCirculator) (og : Nat) (fuel : Nat),
      c.outgoing = some og → oppositeOf t og = none →
      vertexCircTake t fuel c = []) := by
  constructor
  · intro fuel hf
    have htrace := vertexCircTake_trace s m O I hopp hnext hlast hmin m
      (by omega) (by omega) fuel hf
    simp only [Nat.sub_self, Nat.zero_add] at htrace
    exact htrace
  · intro t c og fuel hog hno
    cases fuel with
    | zero => rfl
    | succ fuel =>
      have h1 : ((c.outgoing).bind (fun o => edgeAt t o)).bind Edge.opposite = none := by
        rw [hog]
        simpa [oppositeOf] using hno
      show (match vertexCircStep t c with
        | (c2, some e) => e :: vertexCircTake t fuel c2
        | (_, none) => []) = []
      simp [vertexCircStep, h1]

/-- A closed one-ring of valence 3 around a central vertex: outgoing edges
`0, 2, 4` and incoming edges `1, 3, 5`, with `opposite 0 = 1`,
`next 1 = 2`, `opposite 2 = 3`, `next 3 = 4`, `opposite 4 = 5`,
`next 5 = 0`. -/
def fanStore : EdgeStore :=
  [(0, ⟨1, some 1, none, none⟩),
   (1, ⟨0, some 0, some 2, none⟩),
   (2, ⟨2, some 3, none, none⟩),
   (3, ⟨0, some 2, some 4, none⟩),
   (4, ⟨3, some 5, none, none⟩),
   (5, ⟨0, some 4, some 0, none⟩)]

/-- Witness for C3: the valence-3 fan yields the incoming edges
`[1, 3, 5]`, and a boundary store with an absent opposite stalls. -/
theorem claim3_vertex_incoming_edges_witness :
    incomingEdges fanStore (some 0) 10 = (List.range 3).map (fun k => 2 * k + 1) ∧
    vertexCircTake [(0, ⟨1, none, none, none⟩)] 10 ⟨some 0, some 0⟩ = [] := by
  have h := claim3_vertex_incoming_edges fanStore 3 (fun k => 2 * k) (fun k => 2 * k + 1)
    (by decide) (by decide) (by decide) (by decide) (by decide)
  exact ⟨h.1 10 (by decide),
    h.2 [(0, ⟨1, none, none, none⟩)] ⟨some 0, some 0⟩ 0 10 rfl (by decide)⟩

/-- `HashIndexer` state (index.rs lines 52-60): a map from key to index —
modelled as an association list in insertion order — and the counter `n` of
indices handed out so far. -/
structure HashIndexer (K : Type) where
  hash : List (K × Nat)
  n : Nat
deriving Repr

/-- Map lookup, the hit test of `HashMap::entry`. -/
def hashLookup {K : Type} [DecidableEq K] (h : List (K × Nat)) (k : K) : Option Nat :=
  (h.find? (fun p => decide (p.1 = k))).map Prod.snd

/-- `HashIndexer::index` (index.rs lines 92-106): `entry(key).or_insert_with`
returns the stored index on a hit without emitting; on a miss it stores the
fresh index `n` for the key, increments `n` and emits the vertex. -/
def HashIndexer.index {K V : Type} [DecidableEq K] (ix : HashIndexer K) (input : V)
    (f : V → K) : (Nat × Option V) × HashIndexer K :=
  match hashLookup ix.hash (f input) with
  | some i => ((i, none), ix)
  | none => ((ix.n, some input), ⟨ix.hash ++ [(f input, ix.n)], ix.n + 1⟩)

/-- A sequence of `HashIndexer::index` calls, collecting the outputs and
the final indexer state. -/
def HashIndexer.run {K V : Type} [DecidableEq K] (f : V → K) :
    List V → HashIndexer K → List (Nat × Option V) × HashIndexer K
  | [], ix => ([], ix)
  | v :: vs, ix =>
    let r := ix.index v f
    let rest := HashIndexer.run f vs r.2
    (r.1 :: rest.1, rest.2)

/-- Specification-side accumulator: extend a first-occurrence key list by
one key. -/
def seenStep {K : Type} [DecidableEq K] (acc : List K) (k : K) : List K :=
  if k ∈ acc then acc else acc ++ [k]

/-- Specification-side: the distinct keys of a call sequence, in order of
first occurrence. -/
def seenKeys {K V : Type} [DecidableEq K] (f : V → K) (vs : List V) : List K :=
  vs.foldl (fun acc v => seenStep acc (f v)) []

/-- Specification-side: the position of the first occurrence of a key in a
list, if any. -/
def posOf {K : Type} [DecidableEq K] (k : K) : List K → Option Nat
  | [] => none
  | a :: l => if a = k then some 0 else (posOf k l).map (· + 1)

theorem posOf_eq_none_iff {K : Type} [DecidableEq K] (k : K) (l : List K) :
    posOf k l = none ↔ k ∉ l := by
  induction l with
  | nil => simp [posOf]
  | cons a l ih =>
    by_cases h : a = k
    · subst h
      simp [posOf]
    · have hne : ¬k = a := fun hh => h hh.symm
      simp [posOf, h, Option.map_eq_none', ih, hne]

theorem hashLookup_append {K : Type} [DecidableEq K] (h1 h2 : List (K × Nat)) (k : K) :
    hashLookup (h1 ++ h2) k =
      match hashLookup h1 k with
      | some i => some i
      | none => hashLookup h2 k := by
  rw [hashLookup, List.find?_append]
  rcases h : List.find? (fun p => decide (p.1 = k)) h1 with _ | p
  · simp [hashLookup, h]
  · simp [hashLookup, h]

theorem posOf_append {K : Type} [DecidableEq K] (k : K) (l1 l2 : List K) :
    posOf k (l1 ++ l2) =
      match posOf k l1 with
      | some i => some i
      | none => (posOf k l2).map (· + l1.length) := by
  induction l1 with
  | nil => simp [posOf]
  | cons a l1 ih =>
    by_cases ha : a = k
    · simp [posOf, ha]
    · have hstep : posOf k (a :: (l1 ++ l2)) = (posOf k (l1 ++ l2)).map (· + 1) := by
        simp [posOf, ha]
      have hstep2 : posOf k (a :: l1) = (posOf k l1).map (· + 1) := by
        simp [posOf, ha]
      rw [List.cons_append, hstep, hstep2, ih]
      rcases hp : posOf k l1 with _ | i
      · rcases hq : posOf k l2 with _ | j
        · rfl
        · show some (j + l1.length + 1) = some (j + (l1.length + 1))
          rfl
      · rfl

/-- The invariant tying a `HashIndexer` state to the first-occurrence key
list of the calls made so far: lookups agree with first-occurrence
positions and `n` counts the distinct keys. -/
def HashInv {K : Type} [DecidableEq K] (ix : HashIndexer K) (keys : List K) : Prop :=
  (∀ k, hashLookup ix.hash k = posOf k keys) ∧ ix.n = keys.length

theorem hashIndex_step {K V : Type} [DecidableEq K] (ix : HashIndexer K) (keys : List K)
    (hInv : HashInv ix keys) (v : V) (f : V → K) :
    HashInv (ix.index v f).2 (seenStep keys (f v)) := by
  obtain ⟨hlook, hn⟩ := hInv
  by_cases hmem : f v ∈ keys
  · have hsome : posOf (f v) keys ≠ none := by
      intro hnone
      exact ((posOf_eq_none_iff _ _).mp hnone) hmem
    rcases hpos : posOf (f v) keys with _ | i
    · exact absurd hpos hsome
    · have : ix.index v f = ((i, none), ix) := by
        rw [HashIndexer.index, hlook (f v), hpos]
      rw [this]
      rw [seenStep, if_pos hmem]
      exact ⟨hlook, hn⟩
  · have hpos : posOf (f v) keys = none := (posOf_eq_none_iff _ _).mpr hmem
    have hstep : ix.index v f =
        ((ix.n, some v), ⟨ix.hash ++ [(f v, ix.n)], ix.n + 1⟩) := by
      rw [HashIndexer.index, hlook (f v), hpos]
    rw [hstep, seenStep, if_neg hmem]
    constructor
    · intro k
      rw [hashLookup_append, hlook k, posOf_append]
      rcases hp : posOf k keys with _ | i
      · by_cases hk : f v = k
        · subst hk
          show hashLookup [(f v, ix.n)] (f v) = (posOf (f v) [f v]).map (· + keys.length)
          simp [hashLookup, posOf, List.find?, hn]
        · show hashLookup [(f v, ix.n)] k = (posOf k [f v]).map (· + keys.length)
          simp [hashLookup, posOf, List.find?, hk]
      · rfl
    · simp [hn]

theorem hashRun_inv {K V : Type} [DecidableEq K] (f : V → K) (vs : List V) :
    ∀ (ix : HashIndexer K) (keys : List K), HashInv ix keys →
      HashInv (HashIndexer.run f vs ix).2
        (vs.foldl (fun acc v => seenStep acc (f v)) keys) := by
  induction vs with
  | nil => intro ix keys h; exact h
  | cons v vs ih =>
    intro ix keys h
    exact ih (ix.index v f).2 (seenStep keys (f v)) (hashIndex_step ix keys h v f)

theorem mem_seenFold {K V : Type} [DecidableEq K] (f : V → K) (vs : List V) :
    ∀ (keys : List K) (k : K),
      (k ∈ vs.foldl (fun acc v => seenStep acc (f v)) keys ↔ k ∈ keys ∨ k ∈ vs.map f) := by
  induction vs with
  | nil => simp
  | cons v vs ih =>
    intro keys k
    rw [List.foldl_cons, ih (seenStep keys (f v)) k]
    rw [seenStep, List.map_cons]
    by_cases hm : f v ∈ keys
    · rw [if_pos hm]
      constructor
      · rintro (h | h)
        · exact Or.inl h
        · exact Or.inr (List.mem_cons.mpr (Or.inr h))
      · rintro (h | h)
        · exact Or.inl h
        · rcases List.mem_cons.mp h with h2 | h2
          · subst h2; exact Or.inl hm
          · exact Or.inr h2
    · rw [if_neg hm]
      constructor
      · rintro (h | h)
        · rcases List.mem_append.mp h with h2 | h2
          · exact Or.inl h2
          · exact Or.inr (List.mem_cons.mpr (Or.inl (List.mem_singleton.mp h2)))
        · exact Or.inr (List.mem_cons.mpr (Or.inr h))
      · rintro (h | h)
        · exact Or.inl (List.mem_append.mpr (Or.inl h))
        · rcases List.mem_cons.mp h with h2 | h2
          · exact Or.inl (List.mem_append.mpr (Or.inr (List.mem_singleton.mpr h2)))
          · exact Or.inr h2

theorem mem_seenKeys {K V : Type} [DecidableEq K] (f : V → K) (vs : List V) (k : K) :
    k ∈ seenKeys f vs ↔ k ∈ vs.map f := by
  rw [seenKeys, mem_seenFold]
  simp

/-- C5: a `HashIndexer::index` call on vertex `v` after the call sequence
`vs` emits `some v` exactly when the key `f v` has not occurred in any
earlier call; in that case the returned index is the number of distinct
keys seen before the call; otherwise the call emits nothing and returns
the index first stored for that key (its first-occurrence position among
the distinct keys). -/
theorem claim5_hash_indexer {K V : Type} [DecidableEq K] (f : V → K) (vs : List V) (v : V) :
    (((HashIndexer.run f vs ⟨[], 0⟩).2.index v f).1.2 = some v ↔ f v ∉ vs.map f) ∧
    (f v ∉ vs.map f →
      ((HashIndexer.run f vs ⟨[], 0⟩).2.index v f).1.1 = (seenKeys f vs).length ∧
      ((HashIndexer.run f vs ⟨[], 0⟩).2.index v f).1.2 = some v) ∧
    (f v ∈ vs.map f →
      ((HashIndexer.run f vs ⟨[], 0⟩).2.index v f).1.2 = none ∧
      posOf (f v) (seenKeys f vs) =
        some (((HashIndexer.run f vs ⟨[], 0⟩).2.index v f).1.1)) := by
  have hInv0 : HashInv (⟨[], 0⟩ : HashIndexer K) [] := ⟨fun k => rfl, rfl⟩
  obtain ⟨hlook, hn⟩ := hashRun_inv f vs ⟨[], 0⟩ [] hInv0
  by_cases hmem : f v ∈ vs.map f
  · have hmk : f v ∈ seenKeys f vs := (mem_seenKeys f vs (f v)).mpr hmem
    have hne : posOf (f v) (seenKeys f vs) ≠ none := by
      intro h0
      exact ((posOf_eq_none_iff _ _).mp h0) hmk
    rcases hpos : posOf (f v) (seenKeys f vs) with _ | i
    · exact absurd hpos hne
    · have hcall : (HashIndexer.run f vs ⟨[], 0⟩).2.index v f
          = ((i, none), (HashIndexer.run f vs ⟨[], 0⟩).2) := by
        have hl : hashLookup (HashIndexer.run f vs ⟨[], 0⟩).2.hash (f v) = some i := by
          rw [hlook (f v)]; exact hpos
        simp only [HashIndexer.index, hl]
      rw [hcall]
      refine ⟨?_, ?_, ?_⟩
      · constructor
        · intro h; exact Option.noConfusion h
        · intro h; exact absurd hmem h
      · intro h; exact absurd hmem h
      · intro _; exact ⟨rfl, rfl⟩
  · have hmk : f v ∉ seenKeys f vs := fun h => hmem ((mem_seenKeys f vs (f v)).mp h)
    have hpos : posOf (f v) (seenKeys f vs) = none := (posOf_eq_none_iff _ _).mpr hmk
    have hcall : (HashIndexer.run f vs ⟨[], 0⟩).2.index v f
        = (((HashIndexer.run f vs ⟨[], 0⟩).2.n, some v),
           ⟨(HashIndexer.run f vs ⟨[], 0⟩).2.hash ++
              [(f v, (HashIndexer.run f vs ⟨[], 0⟩).2.n)],
            (HashIndexer.run f vs ⟨[], 0⟩).2.n + 1⟩) := by
      have hl : hashLookup (HashIndexer.run f vs ⟨[], 0⟩).2.hash (f v) = none := by
        rw [hlook (f v)]; exact hpos
      simp only [HashIndexer.index, hl]
    rw [hcall]
    refine ⟨?_, ?_, ?_⟩
    · exact ⟨fun _ => hmem, fun _ => rfl⟩
    · intro _; exact ⟨hn, rfl⟩
    · intro h; exact absurd h hmem

/-- Witness for C5: after indexing `[5, 7, 5]` with the identity key, the
fresh key `9` gets index 2 (the number of distinct keys seen) while the
repeated key `7` emits nothing. -/
theorem claim5_hash_indexer_witness :
    ((9 : Nat) ∉ ([5, 7, 5] : List Nat).map (fun k => k)) ∧
    (((HashIndexer.run (fun k : Nat => k) [5, 7, 5] ⟨[], 0⟩).2.index 9 (fun k => k)).1.1 =
      (seenKeys (fun k : Nat => k) [5, 7, 5]).length) ∧
    ((7 : Nat) ∈ ([5, 7, 5] : List Nat).map (fun k => k)) ∧
    (((HashIndexer.run (fun k : Nat => k) [5, 7, 5] ⟨[], 0⟩).2.index 7 (fun k => k)).1.2 =
      none) :=
  ⟨by decide,
   ((claim5_hash_indexer (fun k : Nat => k) [5, 7, 5] 9).2.1 (by decide)).1,
   by decide,
   ((claim5_hash_indexer (fun k : Nat => k) [5, 7, 5] 7).2.2 (by decide)).1⟩

/-- `LruIndexer` state (index.rs lines 132-141): the cache — an ordered
list of (key, index) pairs, least recently used first — its capacity, and
the counter `n` of indices handed out so far. -/
structure LruIndexer (K : Type) where
  lru : List (K × Nat)
  capacity : Nat
  n : Nat
deriving Repr

/-- `LruIndexer::with_capacity` (index.rs lines 157-165): the capacity is
floored at 1 (`cmp::max(1, capacity)`); the cache starts empty with the
counter at 0. -/
def LruIndexer.withCapacity (K : Type) (capacity : Nat) : LruIndexer K :=
  ⟨[], max 1 capacity, 0⟩

/-- `LruIndexer::find` (index.rs lines 167-173): linear search from the
front of the cache (`iter().enumerate().find(…)`) for the first entry
whose key equals the probe key, returning its position and stored index. -/
def lruFind {K : Type} [DecidableEq K] (key : K) : List (K × Nat) → Option (Nat × Nat)
  | [] => none
  | e :: rest =>
    if e.1 = key then some (0, e.2)
    else (lruFind key rest).map (fun q => (q.1 + 1, q.2))

def LruIndexer.find {K : Type} [DecidableEq K] (ix : LruIndexer K) (key : K) :
    Option (Nat × Nat) :=
  lruFind key ix.lru

/-- `LruIndexer::index` (index.rs lines 191-213).  On a hit the matched
entry is removed from its position and pushed to the back, and its stored
index is returned without emission; on a miss, when the cache is full
(`len >= capacity`) the front entry is removed first, then `(key, n)` is
pushed to the back, `n` is incremented and the vertex is emitted.  (On a
hit, `Vec::remove` at the position returned by `find` cannot be out of
bounds; the `none` fallback below is unreachable.) -/
def LruIndexer.index {K V : Type} [DecidableEq K] (ix : LruIndexer K) (input : V)
    (f : V → K) : (Nat × Option V) × LruIndexer K :=
  match ix.find (f input) with
  | some q =>
    match ix.lru[q.1]? with
    | some entry => ((q.2, none), { ix with lru := ix.lru.eraseIdx q.1 ++ [entry] })
    | none => ((q.2, none), ix)
  | none =>
    let lru1 := if ix.capacity ≤ ix.lru.length then ix.lru.eraseIdx 0 else ix.lru
    ((ix.n, some input), { ix with lru := lru1 ++ [(f input, ix.n)], n := ix.n + 1 })

/-- A sequence of `LruIndexer::index` calls, collecting the outputs and the
final indexer state. -/
def LruIndexer.run {K V : Type} [DecidableEq K] (f : V → K) :
    List V → LruIndexer K → List (Nat × Option V) × LruIndexer K
  | [], ix => ([], ix)
  | v :: vs, ix =>
    let r := ix.index v f
    let rest := LruIndexer.run f vs r.2
    (r.1 :: rest.1, rest.2)

theorem lruFind_some {K : Type} [DecidableEq K] (key : K) (l : List (K × Nat))
    (pos stored : Nat) (h : lruFind key l = some (pos, stored)) :
    pos < l.length ∧ l[pos]? = some (key, stored) ∧
      ∀ i, i < pos → ∀ e, l[i]? = some e → e.1 ≠ key := by
  induction l generalizing pos stored with
  | nil => exact Option.noConfusion h
  | cons e rest ih =>
    by_cases he : e.1 = key
    · rw [lruFind, if_pos he] at h
      have hps : ((0 : Nat), e.2) = (pos, stored) := Option.some.inj h
      have h1 : (0 : Nat) = pos := congrArg Prod.fst hps
      have h2 : e.2 = stored := congrArg Prod.snd hps
      subst h1
      subst h2
      refine ⟨by simp, ?_, ?_⟩
      · rw [List.getElem?_cons_zero, ← he]
      · intro i hi
        omega
    · rw [lruFind, if_neg he] at h
      rcases hr : lruFind key rest with _ | q
      · rw [hr] at h
        exact Option.noConfusion h
      · rw [hr] at h
        have hps : (q.1 + 1, q.2) = (pos, stored) := Option.some.inj h
        have h1 : q.1 + 1 = pos := congrArg Prod.fst hps
        have h2 : q.2 = stored := congrArg Prod.snd hps
        obtain ⟨ha, hb, hc⟩ := ih q.1 q.2 (by rw [hr])
        subst h1
        subst h2
        refine ⟨by simp only [List.length_cons]; omega, by simpa using hb, ?_⟩
        intro i hi e2 he2
        cases i with
        | zero =>
          simp at he2
          rw [← he2]
          exact he
        | succ i =>
          simp at he2
          exact hc i (by omega) e2 he2

theorem lruFind_none {K : Type} [DecidableEq K] (key : K) (l : List (K × Nat)) :
    lruFind key l = none ↔ ∀ e ∈ l, e.1 ≠ key := by
  induction l with
  | nil => simp [lruFind]
  | cons e rest ih =>
    by_cases he : e.1 = key
    · simp [lruFind, he]
    · simp [lruFind, he, Option.map_eq_none', ih]

theorem lruFind_mem {K : Type} [DecidableEq K] (key : K) (l : List (K × Nat))
    (h : key ∈ l.map Prod.fst) : ∃ q, lruFind key l = some q := by
  rcases hf : lruFind key l with _ | q
  · rw [lruFind_none] at hf
    obtain ⟨e, he, hek⟩ := List.mem_map.mp h
    exact absurd hek (hf e he)
  · exact ⟨q, rfl⟩

theorem cons_eraseIdx_perm {α : Type} (l : List α) (pos : Nat) (e : α)
    (h : l[pos]? = some e) : (e :: l.eraseIdx pos).Perm l := by
  induction l generalizing pos with
  | nil => exact Option.noConfusion h
  | cons a rest ih =>
    cases pos with
    | zero =>
      simp at h
      subst h
      exact List.Perm.refl _
    | succ pos =>
      simp at h
      have hperm := ih pos h
      show (e :: a :: rest.eraseIdx pos).Perm (a :: rest)
      exact (List.Perm.swap a e _).trans (hperm.cons a)

/-- C7: an `LruIndexer::index` call whose key equals — by `==`, located by
linear search from the front — the key of some cached entry returns that
(first matching) entry's stored index with nothing emitted, and moves the
entry to the back of the cache, leaving the set of cached (key, index)
pairs otherwise unchanged: the new cache is a permutation of the old one
and the capacity and counter are untouched. -/
theorem claim7_lru_hit {K V : Type} [DecidableEq K] (ix : LruIndexer K) (input : V)
    (f : V → K) (hmem : f input ∈ ix.lru.map Prod.fst) :
    ∃ pos stored,
      ix.find (f input) = some (pos, stored) ∧
      ix.lru[pos]? = some (f input, stored) ∧
      (∀ i, i < pos → ∀ e, ix.lru[i]? = some e → e.1 ≠ f input) ∧
      (ix.index input f).1 = (stored, none) ∧
      (ix.index input f).2.lru = ix.lru.eraseIdx pos ++ [(f input, stored)] ∧
      ((ix.index input f).2.lru).Perm ix.lru ∧
      (ix.index input f).2.capacity = ix.capacity ∧
      (ix.index input f).2.n = ix.n := by
  obtain ⟨q, hf⟩ := lruFind_mem (f input) ix.lru hmem
  obtain ⟨pos, stored⟩ := q
  obtain ⟨hlt, hget, hminim⟩ := lruFind_some (f input) ix.lru pos stored hf
  have hfind : ix.find (f input) = some (pos, stored) := hf
  have hcall : ix.index input f =
      ((stored, none), { ix with lru := ix.lru.eraseIdx pos ++ [(f input, stored)] }) := by
    simp only [LruIndexer.index, hfind, hget]
  refine ⟨pos, stored, hfind, hget, hminim, ?_, ?_, ?_, ?_, ?_⟩
  · rw [hcall]
  · rw [hcall]
  · rw [hcall]
    exact (List.perm_append_singleton _ _).trans (cons_eraseIdx_perm ix.lru pos _ hget)
  · rw [hcall]
  · rw [hcall]

/-- Witness for C7: probing the cache `[(3, 0), (4, 1)]` with key `3` hits
the front entry, returns its index 0 silently and moves it to the back. -/
theorem claim7_lru_hit_witness :
    ∃ pos stored,
      (⟨[(3, 0), (4, 1)], 4, 2⟩ : LruIndexer Nat).find 3 = some (pos, stored) ∧
      ([(3, 0), (4, 1)] : List (Nat × Nat))[pos]? = some (3, stored) ∧
      (∀ i, i < pos → ∀ e, ([(3, 0), (4, 1)] : List (Nat × Nat))[i]? = some e →
        e.1 ≠ 3) ∧
      ((⟨[(3, 0), (4, 1)], 4, 2⟩ : LruIndexer Nat).index 3 (fun k => k)).1 =
        (stored, none) ∧
      ((⟨[(3, 0), (4, 1)], 4, 2⟩ : LruIndexer Nat).index 3 (fun k => k)).2.lru =
        ([(3, 0), (4, 1)] : List (Nat × Nat)).eraseIdx pos ++ [(3, stored)] ∧
      (((⟨[(3, 0), (4, 1)], 4, 2⟩ : LruIndexer Nat).index 3 (fun k => k)).2.lru).Perm
        [(3, 0), (4, 1)] ∧
      ((⟨[(3, 0), (4, 1)], 4, 2⟩ : LruIndexer Nat).index 3 (fun k => k)).2.capacity = 4 ∧
      ((⟨[(3, 0), (4, 1)], 4, 2⟩ : LruIndexer Nat).index 3 (fun k => k)).2.n = 2 :=
  claim7_lru_hit ⟨[(3, 0), (4, 1)], 4, 2⟩ 3 (fun k => k) (by decide)

theorem lruIndex_step_inv {K V : Type} [DecidableEq K] (ix : LruIndexer K)
    (hInv : ∀ e ∈ ix.lru, e.2 < ix.n) (input : V) (f : V → K) :
    (∀ e ∈ (ix.index input f).2.lru, e.2 < (ix.index input f).2.n) ∧
    (ix.index input f).1.1 < (ix.index input f).2.n ∧
    ix.n ≤ (ix.index input f).2.n := by
  rcases hf : ix.find (f input) with _ | q
  · have hcall : ix.index input f = ((ix.n, some input),
        { ix with
          lru := (if ix.capacity ≤ ix.lru.length then ix.lru.eraseIdx 0 else ix.lru)
            ++ [(f input, ix.n)],
          n := ix.n + 1 }) := by
      simp only [LruIndexer.index, hf]
    rw [hcall]
    refine ⟨?_, Nat.lt_succ_self _, Nat.le_succ _⟩
    intro e he
    show e.2 < ix.n + 1
    rcases List.mem_append.mp he with h1 | h1
    · have hmem : e ∈ ix.lru := by
        by_cases hc : ix.capacity ≤ ix.lru.length
        · rw [if_pos hc] at h1
          exact List.mem_of_mem_eraseIdx h1
        · rw [if_neg hc] at h1
          exact h1
      have := hInv e hmem
      omega
    · have he2 : e = (f input, ix.n) := List.mem_singleton.mp h1
      rw [he2]
      exact Nat.lt_succ_self _
  · obtain ⟨pos, stored⟩ := q
    obtain ⟨hlt, hget, -⟩ := lruFind_some (f input) ix.lru pos stored hf
    have hcall : ix.index input f = ((stored, none),
        { ix with lru := ix.lru.eraseIdx pos ++ [(f input, stored)] }) := by
      simp only [LruIndexer.index, hf, hget]
    rw [hcall]
    have hperm : (ix.lru.eraseIdx pos ++ [(f input, stored)]).Perm ix.lru :=
      (List.perm_append_singleton _ _).trans (cons_eraseIdx_perm ix.lru pos _ hget)
    refine ⟨?_, ?_, Nat.le_refl _⟩
    · intro e he
      show e.2 < ix.n
      exact hInv e (hperm.mem_iff.mp he)
    · show stored < ix.n
      exact hInv (f input, stored) (List.getElem?_mem hget)

theorem lruRun_inv {K V : Type} [DecidableEq K] (f : V → K) (vs : List V) :
    ∀ ix : LruIndexer K, (∀ e ∈ ix.lru, e.2 < ix.n) →
      (∀ e ∈ (LruIndexer.run f vs ix).2.lru, e.2 < (LruIndexer.run f vs ix).2.n) ∧
      ix.n ≤ (LruIndexer.run f vs ix).2.n ∧
      ∀ out ∈ (LruIndexer.run f vs ix).1, out.1 < (LruIndexer.run f vs ix).2.n := by
  induction vs with
  | nil =>
    intro ix h
    refine ⟨h, Nat.le_refl _, ?_⟩
    intro out hout
    exact absurd hout (List.not_mem_nil _)
  | cons v vs ih =>
    intro ix h
    obtain ⟨h1, h2, h3⟩ := lruIndex_step_inv ix h v f
    obtain ⟨ha, hb, hc⟩ := ih (ix.index v f).2 h1
    refine ⟨ha, Nat.le_trans h3 hb, ?_⟩
    intro out hout
    rcases List.mem_cons.mp hout with h4 | h4
    · rw [h4]
      exact Nat.lt_of_lt_of_le h2 hb
    · exact hc out h4

/-- C6: `with_capacity c` floors the capacity at 1 (`max 1 c`); a miss on a
full cache discards the front (least recently used) entry before pushing
the fresh entry at the back; and a key absent from the cache — discarded
or never seen — is assigned the counter value as a brand-new index, with
the vertex emitted again, an index different from every index returned by
any earlier call of the indexer. -/
theorem claim6_lru_capacity_eviction {K V : Type} [DecidableEq K] :
    (∀ c : Nat, (LruIndexer.withCapacity K c).capacity = max 1 c) ∧
    (∀ (ix : LruIndexer K) (input : V) (f : V → K),
      ix.find (f input) = none → ix.capacity ≤ ix.lru.length →
      (ix.index input f).1 = (ix.n, some input) ∧
      (ix.index input f).2.lru = ix.lru.eraseIdx 0 ++ [(f input, ix.n)]) ∧
    (∀ (c : Nat) (f : V → K) (vs : List V) (v : V),
      (LruIndexer.run f vs (LruIndexer.withCapacity K c)).2.find (f v) = none →
      ((LruIndexer.run f vs (LruIndexer.withCapacity K c)).2.index v f).1 =
        ((LruIndexer.run f vs (LruIndexer.withCapacity K c)).2.n, some v) ∧
      ∀ out ∈ (LruIndexer.run f vs (LruIndexer.withCapacity K c)).1,
        out.1 ≠ ((LruIndexer.run f vs (LruIndexer.withCapacity K c)).2.index v f).1.1) := by
  refine ⟨fun c => rfl, ?_, ?_⟩
  · intro ix input f hf hfull
    have hcall : ix.index input f = ((ix.n, some input),
        { ix with
          lru := (if ix.capacity ≤ ix.lru.length then ix.lru.eraseIdx 0 else ix.lru)
            ++ [(f input, ix.n)],
          n := ix.n + 1 }) := by
      simp only [LruIndexer.index, hf]
    constructor
    · rw [hcall]
    · rw [hcall]
      show (if ix.capacity ≤ ix.lru.length then ix.lru.eraseIdx 0 else ix.lru)
          ++ [(f input, ix.n)] = ix.lru.eraseIdx 0 ++ [(f input, ix.n)]
      rw [if_pos hfull]
  · intro c f vs v hmiss
    have hInv0 : ∀ e ∈ (LruIndexer.withCapacity K c).lru,
        e.2 < (LruIndexer.withCapacity K c).n := by
      intro e he
      exact absurd he (List.not_mem_nil _)
    obtain ⟨-, -, houts⟩ := lruRun_inv f vs (LruIndexer.withCapacity K c) hInv0
    constructor
    · show ((LruIndexer.run f vs (LruIndexer.withCapacity K c)).2.index v f).1 = _
      simp only [LruIndexer.index, hmiss]
    · intro out hout
      have h1 : ((LruIndexer.run f vs (LruIndexer.withCapacity K c)).2.index v f).1.1
          = (LruIndexer.run f vs (LruIndexer.withCapacity K c)).2.n := by
        simp only [LruIndexer.index, hmiss]
      rw [h1]
      have := houts out hout
      omega

/-- Witness for C6: requested capacity 0 is floored to 1; a miss on the
full cache `[(1, 0), (2, 1)]` evicts the front entry; and after running
`[1, 2]` through a capacity-1 indexer, the discarded key `1` gets the
brand-new index 2 with its vertex emitted again. -/
theorem claim6_lru_capacity_eviction_witness :
    (LruIndexer.withCapacity Nat 0).capacity = max 1 0 ∧
    ((⟨[(1, 0), (2, 1)], 2, 2⟩ : LruIndexer Nat).index 5 (fun k => k)).2.lru =
      ([(1, 0), (2, 1)] : List (Nat × Nat)).eraseIdx 0 ++ [(5, 2)] ∧
    ((LruIndexer.run (fun k : Nat => k) [1, 2] (LruIndexer.withCapacity Nat 1)).2.index 1
        (fun k => k)).1 =
      ((LruIndexer.run (fun k : Nat => k) [1, 2] (LruIndexer.withCapacity Nat 1)).2.n,
        some 1) :=
  ⟨(@claim6_lru_capacity_eviction Nat Nat _).1 0,
   ((@claim6_lru_capacity_eviction Nat Nat _).2.1 ⟨[(1, 0), (2, 1)], 2, 2⟩ 5
      (fun k => k) (by decide) (by decide)).2,
   ((@claim6_lru_capacity_eviction Nat Nat _).2.2 1 (fun k => k) [1, 2] 1 (by decide)).1⟩

theorem lruIndex_step_bounded {K V : Type} [DecidableEq K] (ix : LruIndexer K)
    (input : V) (f : V → K) (hcap : 1 ≤ ix.capacity)
    (hlen : ix.lru.length ≤ ix.capacity) :
    (ix.index input f).2.capacity = ix.capacity ∧
    (ix.index input f).2.lru.length ≤ ix.capacity ∧
    ∃ l e, (ix.index input f).2.lru = l ++ [e] ∧ l.Sublist ix.lru ∧
      ix.lru.length ≤ l.length + 1 := by
  rcases hf : ix.find (f input) with _ | q
  · have hcall : ix.index input f = ((ix.n, some input),
        { ix with
          lru := (if ix.capacity ≤ ix.lru.length then ix.lru.eraseIdx 0 else ix.lru)
            ++ [(f input, ix.n)],
          n := ix.n + 1 }) := by
      simp only [LruIndexer.index, hf]
    rw [hcall]
    by_cases hc : ix.capacity ≤ ix.lru.length
    · have hlen1 : (ix.lru.eraseIdx 0).length = ix.lru.length - 1 :=
        List.length_eraseIdx_of_lt (by omega)
      refine ⟨rfl, ?_, ix.lru.eraseIdx 0, (f input, ix.n), ?_, ?_, ?_⟩
      · show ((if ix.capacity ≤ ix.lru.length then ix.lru.eraseIdx 0 else ix.lru)
            ++ [(f input, ix.n)]).length ≤ ix.capacity
        rw [if_pos hc, List.length_append, hlen1]
        simp only [List.length_cons, List.length_nil]
        omega
      · show (if ix.capacity ≤ ix.lru.length then ix.lru.eraseIdx 0 else ix.lru)
            ++ [(f input, ix.n)] = ix.lru.eraseIdx 0 ++ [(f input, ix.n)]
        rw [if_pos hc]
      · exact List.eraseIdx_sublist ix.lru 0
      · omega
    · have hlt : ix.lru.length < ix.capacity := by omega
      refine ⟨rfl, ?_, ix.lru, (f input, ix.n), ?_, List.Sublist.refl _, by omega⟩
      · show ((if ix.capacity ≤ ix.lru.length then ix.lru.eraseIdx 0 else ix.lru)
            ++ [(f input, ix.n)]).length ≤ ix.capacity
        rw [if_neg hc, List.length_append]
        simp only [List.length_cons, List.length_nil]
        omega
      · show (if ix.capacity ≤ ix.lru.length then ix.lru.eraseIdx 0 else ix.lru)
            ++ [(f input, ix.n)] = ix.lru ++ [(f input, ix.n)]
        rw [if_neg hc]
  · obtain ⟨pos, stored⟩ := q
    obtain ⟨hlt, hget, -⟩ := lruFind_some (f input) ix.lru pos stored hf
    have hcall : ix.index input f = ((stored, none),
        { ix with lru := ix.lru.eraseIdx pos ++ [(f input, stored)] }) := by
      simp only [LruIndexer.index, hf, hget]
    rw [hcall]
    have hlen1 : (ix.lru.eraseIdx pos).length = ix.lru.length - 1 :=
      List.length_eraseIdx_of_lt hlt
    refine ⟨rfl, ?_, ix.lru.eraseIdx pos, (f input, stored), rfl,
      List.eraseIdx_sublist ix.lru pos, by omega⟩
    show (ix.lru.eraseIdx pos ++ [(f input, stored)]).length ≤ ix.capacity
    rw [List.length_append, hlen1]
    simp only [List.length_cons, List.length_nil]
    omega

theorem lruRun_bounded {K V : Type} [DecidableEq K] (f : V → K) (vs : List V) :
    ∀ ix : LruIndexer K, 1 ≤ ix.capacity → ix.lru.length ≤ ix.capacity →
      (LruIndexer.run f vs ix).2.capacity = ix.capacity ∧
      (LruIndexer.run f vs ix).2.lru.length ≤ (LruIndexer.run f vs ix).2.capacity := by
  induction vs with
  | nil =>
    intro ix hcap hlen
    exact ⟨rfl, hlen⟩
  | cons v vs ih =>
    intro ix hcap hlen
    obtain ⟨h1, h2, -⟩ := lruIndex_step_bounded ix v f hcap hlen
    obtain ⟨ha, hb⟩ := ih (ix.index v f).2 (by omega) (by omega)
    constructor
    · show (LruIndexer.run f vs (ix.index v f).2).2.capacity = ix.capacity
      rw [ha, h1]
    · show (LruIndexer.run f vs (ix.index v f).2).2.lru.length ≤
        (LruIndexer.run f vs (ix.index v f).2).2.capacity
      exact hb

/-- C10: every `LruIndexer::index` call preserves the capacity, appends
exactly one entry at the back of a base list obtained from the old cache
by removing at most one entry (the matched entry on a hit, the front entry
on an eviction), and keeps the cache length at most the capacity; hence
over any call sequence started from `with_capacity`, the cache length
never exceeds the capacity, which is at least 1. -/
theorem claim10_lru_bounded {K V : Type} [DecidableEq K] :
    (∀ (ix : LruIndexer K) (input : V) (f : V → K),
      1 ≤ ix.capacity → ix.lru.length ≤ ix.capacity →
      (ix.index input f).2.capacity = ix.capacity ∧
      (ix.index input f).2.lru.length ≤ ix.capacity ∧
      ∃ l e, (ix.index input f).2.lru = l ++ [e] ∧ l.Sublist ix.lru ∧
        ix.lru.length ≤ l.length + 1) ∧
    (∀ (c : Nat) (f : V → K) (vs : List V),
      1 ≤ (LruIndexer.run f vs (LruIndexer.withCapacity K c)).2.capacity ∧
      (LruIndexer.run f vs (LruIndexer.withCapacity K c)).2.lru.length ≤
        (LruIndexer.run f vs (LruIndexer.withCapacity K c)).2.capacity) := by
  constructor
  · intro ix input f hcap hlen
    exact lruIndex_step_bounded ix input f hcap hlen
  · intro c f vs
    have h0cap : 1 ≤ (LruIndexer.withCapacity K c).capacity := by
      show 1 ≤ max 1 c
      omega
    have h0len : (LruIndexer.withCapacity K c).lru.length ≤
        (LruIndexer.withCapacity K c).capacity := by
      show (0 : Nat) ≤ max 1 c
      omega
    obtain ⟨h1, h2⟩ := lruRun_bounded f vs (LruIndexer.withCapacity K c) h0cap h0len
    rw [h1]
    exact ⟨h0cap, by rw [← h1]; exact h2⟩

/-- Witness for C10: a full capacity-2 cache stays at length 2 after a
miss, and running four inputs through a capacity-2 indexer leaves the
cache within capacity. -/
theorem claim10_lru_bounded_witness :
    (((⟨[(1, 0), (2, 1)], 2, 2⟩ : LruIndexer Nat).index 5 (fun k => k)).2.capacity = 2 ∧
     ((⟨[(1, 0), (2, 1)], 2, 2⟩ : LruIndexer Nat).index 5 (fun k => k)).2.lru.length ≤ 2 ∧
     ∃ l e, ((⟨[(1, 0), (2, 1)], 2, 2⟩ : LruIndexer Nat).index 5 (fun k => k)).2.lru =
        l ++ [e] ∧ l.Sublist [(1, 0), (2, 1)] ∧
        ([(1, 0), (2, 1)] : List (Nat × Nat)).length ≤ l.length + 1) ∧
    (1 ≤ (LruIndexer.run (fun k : Nat => k) [1, 2, 3, 1]
        (LruIndexer.withCapacity Nat 2)).2.capacity ∧
     (LruIndexer.run (fun k : Nat => k) [1, 2, 3, 1]
        (LruIndexer.withCapacity Nat 2)).2.lru.length ≤
       (LruIndexer.run (fun k : Nat => k) [1, 2, 3, 1]
        (LruIndexer.withCapacity Nat 2)).2.capacity) :=
  ⟨(@claim10_lru_bounded Nat Nat _).1 ⟨[(1, 0), (2, 1)], 2, 2⟩ 5 (fun k => k)
      (by decide) (by decide),
   (@claim10_lru_bounded Nat Nat _).2 2 (fun k => k) [1, 2, 3, 1]⟩

/-- One polygon's pass of `IndexVertices::index_vertices_with` (index.rs
lines 286-293): `topology.map_vertices_into(…)` maps each vertex through
the indexer — an arbitrary stateful `step` function — pushing each emitted
vertex onto the shared vertex buffer, and produces the polygon's index
tuple.  Returns the tuple, the final indexer state and the vertex
buffer. -/
def mapVerticesInto {S V : Type} (step : S → V → (Nat × Option V) × S) :
    List V → S → List V → List Nat × S × List V
  | [], s, vbuf => ([], s, vbuf)
  | v :: rest, s, vbuf =>
    let r := step s v
    let vbuf2 := match r.1.2 with
      | some w => vbuf ++ [w]
      | none => vbuf
    let t := mapVerticesInto step rest r.2 vbuf2
    (r.1.1 :: t.1, t.2.1, t.2.2)

/-- `IndexVertices::index_vertices_with` (index.rs lines 275-297): fold the
polygon stream, collecting each polygon's index tuple and extending the
shared vertex buffer. -/
def indexVerticesWith {S V : Type} (step : S → V → (Nat × Option V) × S) :
    List (List V) → S → List V → List (List Nat) × S × List V
  | [], s, vbuf => ([], s, vbuf)
  | p :: ps, s, vbuf =>
    let t := mapVerticesInto step p s vbuf
    let u := indexVerticesWith step ps t.2.1 t.2.2
    (t.1 :: u.1, u.2.1, u.2.2)

/-- One polygon's pass of `FlatIndexVertices::flat_index_vertices_with`
(index.rs lines 369-377): the inner `for vertex in topology.into_vertices()`
loop, pushing each index onto the shared flat index buffer and each
emitted vertex onto the shared vertex buffer. -/
def flatIndexPolygon {S V : Type} (step : S → V → (Nat × Option V) × S) :
    List V → S → List Nat → List V → List Nat × S × List V
  | [], s, ibuf, vbuf => (ibuf, s, vbuf)
  | v :: rest, s, ibuf, vbuf =>
    let r := step s v
    let vbuf2 := match r.1.2 with
      | some w => vbuf ++ [w]
      | none => vbuf
    flatIndexPolygon step rest r.2 (ibuf ++ [r.1.1]) vbuf2

/-- `FlatIndexVertices::flat_index_vertices_with` (index.rs lines 360-379):
fold the polygon stream through the inner loop, threading the flat index
buffer and the vertex buffer. -/
def flatIndexVerticesWith {S V : Type} (step : S → V → (Nat × Option V) × S) :
    List (List V) → S → List Nat → List V → List Nat × S × List V
  | [], s, ibuf, vbuf => (ibuf, s, vbuf)
  | p :: ps, s, ibuf, vbuf =>
    let t := flatIndexPolygon step p s ibuf vbuf
    flatIndexVerticesWith step ps t.2.1 t.1 t.2.2

theorem flatIndexPolygon_eq {S V : Type} (step : S → V → (Nat × Option V) × S) :
    ∀ (vs : List V) (s : S) (ibuf : List Nat) (vbuf : List V),
      flatIndexPolygon step vs s ibuf vbuf =
        (ibuf ++ (mapVerticesInto step vs s vbuf).1,
         (mapVerticesInto step vs s vbuf).2.1,
         (mapVerticesInto step vs s vbuf).2.2) := by
  intro vs
  induction vs with
  | nil =>
    intro s ibuf vbuf
    simp [flatIndexPolygon, mapVerticesInto]
  | cons v rest ih =>
    intro s ibuf vbuf
    show flatIndexPolygon step rest (step s v).2 (ibuf ++ [(step s v).1.1])
        (match (step s v).1.2 with
          | some w => vbuf ++ [w]
          | none => vbuf) = _
    rw [ih]
    show (ibuf ++ [(step s v).1.1] ++ (mapVerticesInto step rest (step s v).2 _).1,
          _, _) = _
    rw [List.append_assoc]
    rfl

theorem flatIndexVerticesWith_eq {S V : Type} (step : S → V → (Nat × Option V) × S) :
    ∀ (ps : List (List V)) (s : S) (ibuf : List Nat) (vbuf : List V),
      flatIndexVerticesWith step ps s ibuf vbuf =
        (ibuf ++ (indexVerticesWith step ps s vbuf).1.flatten,
         (indexVerticesWith step ps s vbuf).2.1,
         (indexVerticesWith step ps s vbuf).2.2) := by
  intro ps
  induction ps with
  | nil =>
    intro s ibuf vbuf
    simp [flatIndexVerticesWith, indexVerticesWith]
  | cons p ps ih =>
    intro s ibuf vbuf
    show flatIndexVerticesWith step ps (flatIndexPolygon step p s ibuf vbuf).2.1
        (flatIndexPolygon step p s ibuf vbuf).1
        (flatIndexPolygon step p s ibuf vbuf).2.2 = _
    rw [flatIndexPolygon_eq step p s ibuf vbuf, ih]
    show (ibuf ++ (mapVerticesInto step p s vbuf).1 ++ _, _, _) = _
    rw [List.append_assoc]
    rfl

/-- C9: for every polygon stream, every initial indexer state and every
indexer step function, the flat adapter `flat_index_vertices_with`
produces exactly the flattening of the structured adapter
`index_vertices_with`: the flat index buffer is the in-order concatenation
of the per-polygon index tuples, the emitted vertex buffers coincide, and
the final indexer states coincide — the indexer is driven over the same
vertices in the same order. -/
theorem claim9_flat_refines_structured {S V : Type}
    (step : S → V → (Nat × Option V) × S) (polys : List (List V)) (s : S) :
    flatIndexVerticesWith step polys s [] [] =
      ((indexVerticesWith step polys s []).1.flatten,
       (indexVerticesWith step polys s []).2.1,
       (indexVerticesWith step polys s []).2.2) := by
  rw [flatIndexVerticesWith_eq step polys s [] []]
  rfl

/-- Face record (`graph::topology::Face`): one incident half-edge key. -/
structure FaceRec where
  edge : Nat
deriving DecidableEq, Repr

/-- Vertex record (`graph::topology::Vertex`): the optional outgoing
half-edge key.  Geometry payloads are delegated to the geometry traits and
carry no topological content, so they are not modelled. -/
structure VertexRec where
  edge : Option Nat
deriving DecidableEq, Repr

/-- Mesh storage: the three per-kind entity stores and a fresh-key counter
(keys are unique across the mesh lifetime and removed keys are never
reused). -/
structure Mesh where
  vertices : List (Nat × VertexRec)
  edges : List (Nat × Edge)
  faces : List (Nat × FaceRec)
  nextKey : Nat
deriving Repr

/-- Key lookup in the vertex store. -/
def vertexAt (m : Mesh) (k : Nat) : Option VertexRec :=
  (m.vertices.find? (fun p => p.1 == k)).map Prod.snd

/-- Key lookup in the face store. -/
def faceAt (m : Mesh) (k : Nat) : Option FaceRec :=
  (m.faces.find? (fun p => p.1 == k)).map Prod.snd

def vertexCount (m : Mesh) : Nat := m.vertices.length

def edgeCount (m : Mesh) : Nat := m.edges.length

def faceCount (m : Mesh) : Nat := m.faces.length

/-- `GraphError` kinds (§7 of the specification). -/
inductive GraphError
  | TopologyNotFound
  | TopologyMalformed
  | TopologyConflict
  | ArityConflict
  | GeometryInvalid
deriving DecidableEq, Repr

/-- `FaceView::arity` over mesh storage: the count of the interior-edge
circulation, with fuel ample for any terminating circulation (a consistent
loop is no longer than the edge store). -/
def faceArity (m : Mesh) (f : Nat) : Nat :=
  match faceAt m f with
  | none => 0
  | some fr => reachable_arity m.edges fr.edge (m.edges.length + 1)

/-- The vertex keys yielded by the face's `VertexCirculator` (face.rs lines
796-800): each circulated edge key resolved in storage projects to its
`vertex` field; a failed lookup ends the iteration. -/
def vertexKeysAlong (s : EdgeStore) : List Nat → List Nat
  | [] => []
  | ek :: rest =>
    match edgeAt s ek with
    | none => []
    | some r => r.vertex :: vertexKeysAlong s rest

/-- The vertex keys around a face, in circulation order. -/
def faceVertexKeys (m : Mesh) (f : Nat) : List Nat :=
  match faceAt m f with
  | none => []
  | some fr =>
    vertexKeysAlong m.edges (faceCirculateEdges m.edges fr.edge (m.edges.length + 1))

/-- Modelled from the spec: the common vertex keys of two faces, "via the
intersection of their one-rings' vertex sets" (the overlap check of
`FaceJoinCache::snapshot`; the `mutation` module is not under `src/`). -/
def sharedVertexKeys (m : Mesh) (a b : Nat) : List Nat :=
  (faceVertexKeys m a).filter (fun k => decide (k ∈ faceVertexKeys m b))

/-- Modelled from the spec: `FaceJoinCache::snapshot` (in the `mutation`
module, not under `src/`): "Snapshot verifies: both exist; both have the
same arity …; the faces share a common ordered set of vertex keys of the
right cardinality … (via the intersection of their one-rings' vertex
sets)."  Following §7, a missing key is `TopologyNotFound`, an arity
mismatch is `ArityConflict`, and a failed vertex-set overlap is
`TopologyConflict`. -/
def faceJoinSnapshot (m : Mesh) (source destination : Nat) : Except GraphError Unit :=
  match faceAt m source, faceAt m destination with
  | none, _ => .error .TopologyNotFound
  | _, none => .error .TopologyNotFound
  | some _, some _ =>
    if faceArity m source ≠ faceArity m destination then .error .ArityConflict
    else if (sharedVertexKeys m source destination).length ≠ faceArity m source then
      .error .TopologyConflict
    else .ok ()

/-- Modelled from the spec: follow `next` pointers through removed interior
edges (bounded by fuel) to the next surviving edge of a spliced loop. -/
def spliceNext (s : EdgeStore) (removed : List Nat) : Nat → Option Nat → Option Nat
  | 0, _ => none
  | _, none => none
  | fuel + 1, some ek =>
    if ek ∈ removed then spliceNext s removed fuel ((edgeAt s ek).bind Edge.next)
    else some ek

/-- Modelled from the spec: the plan of `face::join_with_cache` (in the
`mutation` module, not under `src/`): "remove both faces and the interior
edges between them along the shared boundary; splice the remaining
boundaries into a single face whose edge loop is the symmetric difference
of the two original loops."  The interior edges between the faces are the
edges of either loop whose opposite lies in the other loop; the surviving
loop edges are rewired past the removed ones and assigned to a fresh face
keyed by the mesh's fresh-key counter. -/
def joinPlan (m : Mesh) (source destination : Nat) : Mesh :=
  let loopOf := fun (f : Nat) => match faceAt m f with
    | some fr => faceCirculateEdges m.edges fr.edge (m.edges.length + 1)
    | none => []
  let loopS := loopOf source
  let loopD := loopOf destination
  let isInterior := fun (ek : Nat) (other : List Nat) =>
    match edgeAt m.edges ek with
    | some r =>
      match r.opposite with
      | some o => other.contains o
      | none => false
    | none => false
  let removed := loopS.filter (fun ek => isInterior ek loopD) ++
    loopD.filter (fun ek => isInterior ek loopS)
  let newFace := m.nextKey
  let keep := (loopS ++ loopD).filter (fun ek => !(removed.contains ek))
  let edges2 := (m.edges.filter (fun p => !(removed.contains p.1))).map (fun p =>
    if keep.contains p.1 then
      (p.1, { p.2 with
        face := some newFace,
        next := spliceNext m.edges removed (m.edges.length + 1) p.2.next })
    else p)
  let faces2 := m.faces.filter (fun p => (p.1 != source) && (p.1 != destination)) ++
    (match keep with
     | e :: _ => [(newFace, FaceRec.mk e)]
     | [] => [])
  { vertices := m.vertices, edges := edges2, faces := faces2, nextKey := m.nextKey + 1 }

/-- `FaceView::join` (face.rs lines 374-381): build the snapshot against
the read-only storage, then run the plan under the replace/commit flow.
The `?` operator propagates a snapshot error before any mutation begins,
leaving the storage untouched. -/
def join (m : Mesh) (source destination : Nat) : Mesh × Option GraphError :=
  match faceJoinSnapshot m source destination with
  | .error e => (m, some e)
  | .ok _ => (joinPlan m source destination, none)

/-- C4: whenever the join snapshot fails validation, `FaceView::join`
returns the structured error and the mesh storage is left completely
unchanged — in particular the vertex, edge and face counts are those
before the call; and for two existing faces sharing no vertices the error
is an `ArityConflict` or a `TopologyConflict`. -/
theorem claim4_join_error_is_noop (m : Mesh) (source destination : Nat)
    (hs : (faceAt m source).isSome) (hd : (faceAt m destination).isSome)
    (hshare : sharedVertexKeys m source destination = [])
    (hpos : 0 < faceArity m source) :
    (∀ e, faceJoinSnapshot m source destination = Except.error e →
      join m source destination = (m, some e)) ∧
    ∃ err, join m source destination = (m, some err) ∧
      (err = GraphError.ArityConflict ∨ err = GraphError.TopologyConflict) ∧
      vertexCount (join m source destination).1 = vertexCount m ∧
      edgeCount (join m source destination).1 = edgeCount m ∧
      faceCount (join m source destination).1 = faceCount m := by
  constructor
  · intro e he
    simp only [join, he]
  · obtain ⟨fs, hfs⟩ := Option.isSome_iff_exists.mp hs
    obtain ⟨fd, hfd⟩ := Option.isSome_iff_exists.mp hd
    by_cases har : faceArity m source = faceArity m destination
    · have hcond : (sharedVertexKeys m source destination).length ≠ faceArity m source := by
        rw [hshare]
        simp only [List.length_nil]
        omega
      have hsnap : faceJoinSnapshot m source destination
          = Except.error GraphError.TopologyConflict := by
        simp only [faceJoinSnapshot, hfs, hfd]
        rw [if_neg (fun hne => hne har), if_pos hcond]
      have hjoin : join m source destination = (m, some GraphError.TopologyConflict) := by
        simp only [join, hsnap]
      exact ⟨GraphError.TopologyConflict, hjoin, Or.inr rfl,
        by rw [hjoin], by rw [hjoin], by rw [hjoin]⟩
    · have hsnap : faceJoinSnapshot m source destination
          = Except.error GraphError.ArityConflict := by
        simp only [faceJoinSnapshot, hfs, hfd]
        rw [if_pos har]
      have hjoin : join m source destination = (m, some GraphError.ArityConflict) := by
        simp only [join, hsnap]
      exact ⟨GraphError.ArityConflict, hjoin, Or.inl rfl,
        by rw [hjoin], by rw [hjoin], by rw [hjoin]⟩

/-- Two disjoint triangular faces (no shared vertex): face 0 over edges
`0 → 1 → 2` and face 1 over edges `3 → 4 → 5`. -/
def twoTriangles : Mesh :=
  { vertices := [(0, ⟨some 0⟩), (1, ⟨some 1⟩), (2, ⟨some 2⟩),
                 (3, ⟨some 3⟩), (4, ⟨some 4⟩), (5, ⟨some 5⟩)],
    edges := [(0, ⟨1, none, some 1, some 0⟩),
              (1, ⟨2, none, some 2, some 0⟩),
              (2, ⟨0, none, some 0, some 0⟩),
              (3, ⟨4, none, some 4, some 1⟩),
              (4, ⟨5, none, some 5, some 1⟩),
              (5, ⟨3, none, some 3, some 1⟩)],
    faces := [(0, ⟨0⟩), (1, ⟨3⟩)],
    nextKey := 100 }

/-- Witness for C4: joining the two disjoint triangles fails with an
`ArityConflict` or `TopologyConflict` and leaves every count unchanged. -/
theorem claim4_join_error_is_noop_witness :
    ∃ err, join twoTriangles 0 1 = (twoTriangles, some err) ∧
      (err = GraphError.ArityConflict ∨ err = GraphError.TopologyConflict) ∧
      vertexCount (join twoTriangles 0 1).1 = vertexCount twoTriangles ∧
      edgeCount (join twoTriangles 0 1).1 = edgeCount twoTriangles ∧
      faceCount (join twoTriangles 0 1).1 = faceCount twoTriangles :=
  (claim4_join_error_is_noop twoTriangles 0 1 (by decide) (by decide) (by decide)
    (by decide)).2

/-- Modelled from the spec: `FaceTriangulateCache::snapshot` (in the
`mutation` module, not under `src/`): "Snapshot verifies existence and
arity ≥ 4 (arity 3 is a no-op that returns a null result)."  A missing
face key is `TopologyNotFound`; the boolean reports whether the plan must
run. -/
def faceTriangulateSnapshot (m : Mesh) (f : Nat) : Except GraphError Bool :=
  match faceAt m f with
  | none => .error .TopologyNotFound
  | some _ => if faceArity m f ≤ 3 then .ok false else .ok true

/-- Modelled from the spec: the plan of `face::triangulate_with_cache` (in
the `mutation` module, not under `src/`): "compute the centroid of the
face; insert a new vertex at the centroid; remove the face; insert
arity(f) new triangular faces, each formed by one original edge and two
fresh spokes from the centroid vertex.  Returns the new centroid vertex
key."  Geometry payloads carry no topological content, so only the links
are built: the centroid vertex takes the fresh key `c = m.nextKey`,
triangle `k` takes face key `c + 1 + k`, its inbound spoke (towards the
centroid) edge key `c + 1 + n + 2k` and its outbound spoke (from the
centroid) edge key `c + 1 + n + 2k + 1`. -/
def triangulatePlan (m : Mesh) (f : Nat) : Mesh × Nat :=
  let c := m.nextKey
  let loop := match faceAt m f with
    | some fr => faceCirculateEdges m.edges fr.edge (m.edges.length + 1)
    | none => []
  let n := loop.length
  let faceKey := fun (k : Nat) => c + 1 + k
  let spokeIn := fun (k : Nat) => c + 1 + n + 2 * k
  let spokeOut := fun (k : Nat) => c + 1 + n + 2 * k + 1
  let destOf := fun (k : Nat) =>
    match edgeAt m.edges (loop.getD k 0) with
    | some r => r.vertex
    | none => 0
  let newFaces := (List.range n).map (fun k => (faceKey k, FaceRec.mk (loop.getD k 0)))
  let inSpokes := (List.range n).map (fun k =>
    (spokeIn k, Edge.mk c (some (spokeOut ((k + 1) % n))) (some (spokeOut k))
      (some (faceKey k))))
  let outSpokes := (List.range n).map (fun k =>
    (spokeOut k, Edge.mk (destOf ((k + n - 1) % n)) (some (spokeIn ((k + n - 1) % n)))
      (some (loop.getD k 0)) (some (faceKey k))))
  let edges2 := m.edges.map (fun p =>
    if p.1 ∈ loop then
      (p.1, { p.2 with
        face := some (faceKey (loop.findIdx (fun x => x == p.1))),
        next := some (spokeIn (loop.findIdx (fun x => x == p.1))) })
    else p)
  ({ vertices := m.vertices ++ [(c, VertexRec.mk (some (spokeOut 0)))],
     edges := edges2 ++ inSpokes ++ outSpokes,
     faces := m.faces.filter (fun p => p.1 != f) ++ newFaces,
     nextKey := c + 1 + n + 2 * n }, c)

/-- `FaceView::triangulate` (face.rs lines 406-413): build the snapshot,
then run the plan under the replace/commit flow; a failed snapshot leaves
the mesh untouched and propagates the error, a null snapshot is a no-op
returning no vertex, and otherwise the plan runs and the new centroid
vertex key is returned. -/
def triangulate (m : Mesh) (f : Nat) : Mesh × Except GraphError (Option Nat) :=
  match faceTriangulateSnapshot m f with
  | .error e => (m, .error e)
  | .ok false => (m, .ok none)
  | .ok true => ((triangulatePlan m f).1, .ok (some (triangulatePlan m f).2))

/-- C8: on a face of arity 3, `FaceView::triangulate` is a no-op on the
mesh and returns the null result `Ok(None)`; on a face of arity at least
4 it succeeds and returns `Ok(Some v)` where `v` is the key of the newly
inserted centroid vertex — a key absent from the vertex store before the
call and present after it, the store having grown by exactly one vertex. -/
theorem claim8_triangulate (m : Mesh) (f : Nat) (fr : FaceRec)
    (hf : faceAt m f = some fr)
    (hfresh : ∀ p ∈ m.vertices, p.1 < m.nextKey) :
    (faceArity m f = 3 → triangulate m f = (m, Except.ok none)) ∧
    (4 ≤ faceArity m f →
      (triangulate m f).2 = Except.ok (some m.nextKey) ∧
      vertexAt m m.nextKey = none ∧
      (vertexAt (triangulate m f).1 m.nextKey).isSome ∧
      vertexCount (triangulate m f).1 = vertexCount m + 1) := by
  have hfind : m.vertices.find? (fun p => p.1 == m.nextKey) = none :=
    List.find?_eq_none.mpr (by
      intro p hp
      have := hfresh p hp
      simp only [beq_iff_eq]
      omega)
  have hnone : vertexAt m m.nextKey = none := by
    rw [vertexAt, hfind]
    rfl
  constructor
  · intro h3
    have hsnap : faceTriangulateSnapshot m f = Except.ok false := by
      simp only [faceTriangulateSnapshot, hf]
      rw [if_pos (by omega)]
    simp only [triangulate, hsnap]
  · intro h4
    have hsnap : faceTriangulateSnapshot m f = Except.ok true := by
      simp only [faceTriangulateSnapshot, hf]
      rw [if_neg (by omega)]
    have hcall : triangulate m f
        = ((triangulatePlan m f).1, Except.ok (some (triangulatePlan m f).2)) := by
      simp only [triangulate, hsnap]
    obtain ⟨r, hverts⟩ :
        ∃ r, (triangulatePlan m f).1.vertices = m.vertices ++ [(m.nextKey, r)] := ⟨_, rfl⟩
    have hsome : vertexAt (triangulatePlan m f).1 m.nextKey = some r := by
      rw [vertexAt, hverts, List.find?_append, hfind]
      simp [List.find?]
    refine ⟨?_, hnone, ?_, ?_⟩
    · rw [hcall]
      rfl
    · rw [hcall]
      show (vertexAt (triangulatePlan m f).1 m.nextKey).isSome
      rw [hsome]
      rfl
    · rw [hcall]
      show vertexCount (triangulatePlan m f).1 = vertexCount m + 1
      rw [vertexCount, hverts, List.length_append]
      rfl

/-- A single quadrilateral face over edges `0 → 1 → 2 → 3`. -/
def quadMesh : Mesh :=
  { vertices := [(0, ⟨some 0⟩), (1, ⟨some 1⟩), (2, ⟨some 2⟩), (3, ⟨some 3⟩)],
    edges := [(0, ⟨1, none, some 1, some 0⟩),
              (1, ⟨2, none, some 2, some 0⟩),
              (2, ⟨3, none, some 3, some 0⟩),
              (3, ⟨0, none, some 0, some 0⟩)],
    faces := [(0, ⟨0⟩)],
    nextKey := 50 }

/-- Witness for C8: triangulating the triangular face 0 of `twoTriangles`
is a no-op returning `Ok(None)`, while triangulating the quad inserts the
fresh centroid vertex 50 and returns its key. -/
theorem claim8_triangulate_witness :
    triangulate twoTriangles 0 = (twoTriangles, Except.ok none) ∧
    (triangulate quadMesh 0).2 = Except.ok (some 50) ∧
    vertexAt quadMesh 50 = none ∧
    (vertexAt (triangulate quadMesh 0).1 50).isSome ∧
    vertexCount (triangulate quadMesh 0).1 = vertexCount quadMesh + 1 := by
  have h1 := (claim8_triangulate twoTriangles 0 ⟨0⟩ (by decide) (by decide)).1 (by decide)
  have h2 := (claim8_triangulate quadMesh 0 ⟨0⟩ (by decide) (by decide)).2 (by decide)
  exact ⟨h1, h2.1, h2.2.1, h2.2.2.1, h2.2.2.2⟩

end Plexus

